import Mathlib

/-!
# Verification of `search_views.py`

A shallow embedding of the lint script `search_views.py`, which scans a
source tree for plain text placed directly inside `<View>` container
components.

The script's pipeline:
* walk the directory tree, skipping roots whose path contains
  `node_modules`, `.git` or `build`, and selecting files with extension
  `.tsx`, `.jsx`, `.ts` or `.js`;
* read each file; on a read failure print a diagnostic and continue;
* match `<View[^>]*>(.*?)</View>` (DOTALL) over the content
  (non-overlapping, leftmost, non-greedy);
* per region: strip the body, discard empty bodies, remove `\{[^}]*\}`
  spans then `<[^>]*>` spans, strip again, and if an alphanumeric
  character survives record an Issue with the file path, the 1-based
  line of the match start, and the (possibly truncated) matched text.

File contents are embedded as `List Char`; the file system is embedded
as an explicit walk list (the sequence `os.walk` would produce) plus a
read function returning `Except`.
-/

namespace SearchViews

/-- Python `str.isspace` range relevant here: the ASCII whitespace
characters Python's `str.strip()` removes. -/
def pyIsSpace (ch : Char) : Bool :=
  ch = ' ' || ch = '\t' || ch = '\n' || ch = '\r' || ch = '\x0b' || ch = '\x0c'

/-- Python `str.strip()`: drop leading and trailing whitespace. -/
def pyStrip (s : List Char) : List Char :=
  ((s.dropWhile pyIsSpace).reverse.dropWhile pyIsSpace).reverse

/-- The character class `[a-zA-Z0-9]` of the classification regex. -/
def isAlnumAscii (ch : Char) : Bool :=
  ('a' ≤ ch && ch ≤ 'z') || ('A' ≤ ch && ch ≤ 'Z') || ('0' ≤ ch && ch ≤ '9')

/-- `re.search(r'[a-zA-Z0-9]+', s)` succeeds iff some character of `s`
is alphanumeric. -/
def hasAlnum (s : List Char) : Bool := s.any isAlnumAscii

/-- Index of the first character satisfying `p`, if any. -/
def firstIdx (p : Char → Bool) : List Char → Option Nat
  | [] => none
  | x :: rest => if p x then some 0 else (firstIdx p rest).map (· + 1)

/-- Index of the first occurrence of `pat` as a contiguous substring. -/
def firstSub (pat : List Char) : List Char → Option Nat
  | [] => if pat.isEmpty then some 0 else none
  | x :: rest =>
    if pat.isPrefixOf (x :: rest) then some 0 else (firstSub pat rest).map (· + 1)

/-- Substring test used for the directory-exclusion markers
(Python `'marker' in root`). -/
def hasSub (pat s : List Char) : Bool := (firstSub pat s).isSome

/-- One pass of `re.sub(r'o[^c]*c', '', s)` semantics (as used with
`\{[^}]*\}` and `<[^>]*>`): repeatedly remove the span from each
leftmost `o` through the first following `c`; an `o` with no following
`c` starts no match, and then nothing later matches either, so the
remainder is kept verbatim.  `acc = some saved` means we are inside a
candidate span whose characters so far (reversed) are `saved`. -/
def stripDelimAux (o c : Char) : Option (List Char) → List Char → List Char
  | none, [] => []
  | some saved, [] => saved.reverse
  | none, x :: rest =>
    if x = o then stripDelimAux o c (some [x]) rest
    else x :: stripDelimAux o c none rest
  | some saved, y :: rest =>
    if y = c then stripDelimAux o c none rest
    else stripDelimAux o c (some (y :: saved)) rest

/-- `re.sub` removing every `o … c` span, leftmost first. -/
def stripDelim (o c : Char) (s : List Char) : List Char := stripDelimAux o c none s

/-- The literal `<View` opening the container pattern. -/
def openTagL : List Char := ['<', 'V', 'i', 'e', 'w']

/-- The literal `</View>` closing the container pattern. -/
def closeTagL : List Char := ['<', '/', 'V', 'i', 'e', 'w', '>']

/-- One match of `view_pattern = <View[^>]*>(.*?)</View>` (DOTALL):
`start` is the offset of `<View` in the content, `body` is group 1,
`full` is group 0. -/
structure RMatch where
  start : Nat
  body : List Char
  full : List Char
  deriving Repr, DecidableEq

/-- `view_pattern.finditer(content)`: all non-overlapping, leftmost
matches.  A match at the first `<View` occurrence takes `[^>]*` up to
the first `>` (forced, since `[^>]` cannot cross `>`), then the
non-greedy body up to the first `</View>`; if any of the three pieces
is missing there is no further match at all.  `off` is the offset of
`s` within the original content; `fuel` bounds the recursion (each
match consumes at least one character). -/
def scanViewsAux : Nat → Nat → List Char → List RMatch
  | 0, _, _ => []
  | fuel + 1, off, s =>
    match firstSub openTagL s with
    | none => []
    | some i =>
      match firstIdx (fun y => y = '>') (s.drop (i + 5)) with
      | none => []
      | some g =>
        match firstSub closeTagL (s.drop (i + 5 + g + 1)) with
        | none => []
        | some e =>
          let len := 5 + g + 1 + e + 7
          { start := off + i,
            body := (s.drop (i + 5 + g + 1)).take e,
            full := (s.drop i).take len } ::
            scanViewsAux fuel (off + i + len) (s.drop (i + len))

/-- All matches of `view_pattern` in `content`. -/
def scanViews (s : List Char) : List RMatch := scanViewsAux s.length 0 s

/-- One reported issue: file path, 1-based line number, snippet. -/
structure Issue where
  file : String
  line : Nat
  content : List Char
  deriving Repr, DecidableEq

/-- The truncation marker `'...'` appended to long snippets. -/
def ellipsisL : List Char := ['.', '.', '.']

/-- The body of the per-match loop of `find_text_in_views`: strip the
body, skip if empty, remove `\{[^}]*\}` spans then `<[^>]*>` spans,
strip, and if alphanumeric text remains build the Issue (line number
`1 +` the newline count before the match start; snippet truncated to
100 characters plus `'...'` when longer). -/
def classify (fp : String) (content : List Char) (m : RMatch) : Option Issue :=
  let view_content := pyStrip m.body
  if view_content.isEmpty then none
  else
    let cleaned1 := stripDelim '{' '}' view_content
    let cleaned2 := stripDelim '<' '>' cleaned1
    let cleaned := pyStrip cleaned2
    if !cleaned.isEmpty && hasAlnum cleaned then
      some { file := fp,
             line := (content.take m.start).count '\n' + 1,
             content := if 100 < m.full.length
                        then m.full.take 100 ++ ellipsisL
                        else m.full }
    else none

/-- Issues produced from one file's content. -/
def processContent (fp : String) (content : List Char) : List Issue :=
  (scanViews content).filterMap (classify fp content)

/-- `'node_modules' in root or '.git' in root or 'build' in root`. -/
def excludedDir (root : String) : Bool :=
  hasSub "node_modules".toList root.toList ||
  hasSub ".git".toList root.toList ||
  hasSub "build".toList root.toList

/-- `file.endswith(('.tsx', '.jsx', '.ts', '.js'))`. -/
def allowedExt (f : String) : Bool :=
  ".tsx".toList.isSuffixOf f.toList || ".jsx".toList.isSuffixOf f.toList ||
  ".ts".toList.isSuffixOf f.toList || ".js".toList.isSuffixOf f.toList

/-- One step of `os.walk`: a directory path and the plain files in it. -/
structure WalkEntry where
  root : String
  files : List String
  deriving Repr, DecidableEq

/-- The diagnostic `print(f"Error reading {filepath}: {e}")`. -/
def errMsg (fp e : String) : String := "Error reading " ++ fp ++ ": " ++ e

/-- Per-file contribution to the issues list: selected, readable files
contribute their `processContent`; others contribute nothing. -/
def fileIssues (read : String → Except String (List Char))
    (root file : String) : List Issue :=
  if allowedExt file then
    match read (root ++ "/" ++ file) with
    | .ok content => processContent (root ++ "/" ++ file) content
    | .error _ => []
  else []

/-- Per-file contribution to the diagnostic output: a failing read of a
selected file prints one line; everything else prints nothing. -/
def fileDiags (read : String → Except String (List Char))
    (root file : String) : List String :=
  if allowedExt file then
    match read (root ++ "/" ++ file) with
    | .ok _ => []
    | .error e => [errMsg (root ++ "/" ++ file) e]
  else []

/-- The body of the inner `for file in files` loop: a selected file is
opened; on success its issues are appended, on a raised exception one
diagnostic line is appended; an unselected file does nothing. -/
def processFileStep (read : String → Except String (List Char)) (root : String)
    (acc2 : List Issue × List String) (file : String) : List Issue × List String :=
  if allowedExt file then
    match read (root ++ "/" ++ file) with
    | .ok content =>
      (acc2.1 ++ processContent (root ++ "/" ++ file) content, acc2.2)
    | .error e =>
      (acc2.1, acc2.2 ++ [errMsg (root ++ "/" ++ file) e])
  else acc2

/-- The body of the outer `for root, dirs, files in os.walk(...)` loop:
an excluded root is skipped entirely, otherwise its files are folded. -/
def walkStep (read : String → Except String (List Char))
    (acc : List Issue × List String) (entry : WalkEntry) : List Issue × List String :=
  if excludedDir entry.root then acc
  else entry.files.foldl (processFileStep read entry.root) acc

/-- `find_text_in_views`: fold over the walk, skipping excluded roots,
accumulating issues and diagnostic lines in traversal order.  The walk
list stands for the sequence `os.walk(directory)` yields; `read` stands
for `open(...).read()`, with `Except.error` for a raised exception. -/
def find_text_in_views (walk : List WalkEntry)
    (read : String → Except String (List Char)) : List Issue × List String :=
  walk.foldl (walkStep read) ([], [])

/-- The issues of a whole walk, entry by entry and file by file. -/
def walkIssues (read : String → Except String (List Char))
    (walk : List WalkEntry) : List Issue :=
  walk.flatMap fun en =>
    if excludedDir en.root then []
    else en.files.flatMap (fileIssues read en.root)

/-- The diagnostic lines of a whole walk, entry by entry. -/
def walkDiags (read : String → Except String (List Char))
    (walk : List WalkEntry) : List String :=
  walk.flatMap fun en =>
    if excludedDir en.root then []
    else en.files.flatMap (fileDiags read en.root)

/-! ## Character-level facts -/

/-- A whitespace character is not alphanumeric. -/
lemma space_not_alnum {x : Char} (h : pyIsSpace x = true) : isAlnumAscii x = false := by
  simp only [pyIsSpace, Bool.or_eq_true, decide_eq_true_eq] at h
  rcases h with ((((h | h) | h) | h) | h) | h <;> subst h <;> decide

/-- A whitespace character is none of the four delimiter characters. -/
lemma space_not_delim {x : Char} (h : pyIsSpace x = true) :
    x ≠ '{' ∧ x ≠ '}' ∧ x ≠ '<' ∧ x ≠ '>' := by
  simp only [pyIsSpace, Bool.or_eq_true, decide_eq_true_eq] at h
  rcases h with ((((h | h) | h) | h) | h) | h <;> subst h <;> refine ⟨?_, ?_, ?_, ?_⟩ <;> decide

/-! ## `pyStrip` -/

/-- `pyStrip s` is `s` with an all-whitespace run removed from each end. -/
lemma pyStrip_decomp (s : List Char) :
    ∃ lws rws, s = lws ++ (pyStrip s ++ rws) ∧
      (∀ x ∈ lws, pyIsSpace x = true) ∧ (∀ x ∈ rws, pyIsSpace x = true) := by
  refine ⟨s.takeWhile pyIsSpace,
    ((s.dropWhile pyIsSpace).reverse.takeWhile pyIsSpace).reverse, ?_, ?_, ?_⟩
  · conv_lhs => rw [← List.takeWhile_append_dropWhile pyIsSpace s]
    congr 1
    conv_lhs => rw [← List.reverse_reverse (s.dropWhile pyIsSpace),
      ← List.takeWhile_append_dropWhile pyIsSpace (s.dropWhile pyIsSpace).reverse]
    rw [List.reverse_append]
    rfl
  · exact fun x hx => List.mem_takeWhile_imp hx
  · exact fun x hx => List.mem_takeWhile_imp (List.mem_reverse.mp hx)

/-- Any-whitespace lists contribute nothing to `hasAlnum`. -/
lemma hasAlnum_ws_append {lws rws m : List Char}
    (hl : ∀ x ∈ lws, pyIsSpace x = true) (hr : ∀ x ∈ rws, pyIsSpace x = true) :
    hasAlnum (lws ++ (m ++ rws)) = hasAlnum m := by
  simp only [hasAlnum, List.any_append]
  have h1 : lws.any isAlnumAscii = false :=
    List.any_eq_false.mpr fun x hx => by simp [space_not_alnum (hl x hx)]
  have h2 : rws.any isAlnumAscii = false :=
    List.any_eq_false.mpr fun x hx => by simp [space_not_alnum (hr x hx)]
  rw [h1, h2, Bool.false_or, Bool.or_false]

/-- Stripping whitespace from the ends does not change whether an
alphanumeric character is present. -/
lemma hasAlnum_pyStrip (s : List Char) : hasAlnum (pyStrip s) = hasAlnum s := by
  obtain ⟨lws, rws, hdec, hl, hr⟩ := pyStrip_decomp s
  conv_rhs => rw [hdec]
  exact (hasAlnum_ws_append hl hr).symm

/-! ## `isPrefixOf` -/

/-- A list is a Boolean prefix of itself followed by anything. -/
lemma isPrefixOf_append_self : ∀ a b : List Char, a.isPrefixOf (a ++ b) = true
  | [], _ => by simp [List.isPrefixOf]
  | x :: a, b => by simp [List.isPrefixOf, isPrefixOf_append_self a b]

/-- `take` produces a Boolean prefix. -/
lemma take_isPrefixOf : ∀ (n : Nat) (l : List Char), (l.take n).isPrefixOf l = true
  | 0, _ => by simp [List.isPrefixOf]
  | _ + 1, [] => by simp [List.isPrefixOf]
  | n + 1, x :: l => by simp [List.isPrefixOf, take_isPrefixOf n l]

/-! ## `stripDelim` -/

/-- With no opener in sight, outside-mode stripping is the identity. -/
lemma stripDelimAux_no_open {o c : Char} :
    ∀ {ws : List Char}, (∀ x ∈ ws, x ≠ o) → stripDelimAux o c none ws = ws
  | [], _ => rfl
  | x :: ws, h => by
    have hx : ¬ x = o := h x (List.mem_cons_self x ws)
    simp only [stripDelimAux, if_neg hx]
    exact congrArg (x :: ·) (stripDelimAux_no_open fun y hy => h y (List.mem_cons_of_mem x hy))

/-- With no closer in sight, inside-mode stripping emits the saved
characters and the rest verbatim. -/
lemma stripDelimAux_no_close {o c : Char} :
    ∀ {ws : List Char} (saved : List Char), (∀ x ∈ ws, x ≠ c) →
      stripDelimAux o c (some saved) ws = saved.reverse ++ ws
  | [], saved, _ => by simp [stripDelimAux]
  | y :: ws, saved, h => by
    have hy : ¬ y = c := h y (List.mem_cons_self y ws)
    simp only [stripDelimAux, if_neg hy]
    rw [stripDelimAux_no_close (y :: saved) fun x hx => h x (List.mem_cons_of_mem y hx)]
    simp

/-- A trailing run containing neither delimiter passes through stripping
untouched, in either mode. -/
lemma stripDelimAux_append_ws {o c : Char} {ws : List Char}
    (ho : ∀ x ∈ ws, x ≠ o) (hc : ∀ x ∈ ws, x ≠ c) :
    ∀ (t : List Char) (mode : Option (List Char)),
      stripDelimAux o c mode (t ++ ws) = stripDelimAux o c mode t ++ ws
  | [], none => by simpa [stripDelimAux] using stripDelimAux_no_open ho
  | [], some saved => by
    simpa [stripDelimAux] using stripDelimAux_no_close saved hc
  | x :: t, none => by
    by_cases hx : x = o
    · simp only [List.cons_append, stripDelimAux, if_pos hx]
      exact stripDelimAux_append_ws ho hc t (some [x])
    · simp only [List.cons_append, stripDelimAux, if_neg hx]
      exact congrArg (x :: ·) (stripDelimAux_append_ws ho hc t none)
  | y :: t, some saved => by
    by_cases hy : y = c
    · simp only [List.cons_append, stripDelimAux, if_pos hy]
      exact stripDelimAux_append_ws ho hc t none
    · simp only [List.cons_append, stripDelimAux, if_neg hy]
      exact stripDelimAux_append_ws ho hc t (some (y :: saved))

/-- A leading run with no opener passes through stripping untouched. -/
lemma stripDelim_append_left {o c : Char} :
    ∀ {ws : List Char}, (∀ x ∈ ws, x ≠ o) →
      ∀ t : List Char, stripDelim o c (ws ++ t) = ws ++ stripDelim o c t
  | [], _, _ => rfl
  | w :: ws, h, t => by
    have hw : ¬ w = o := h w (List.mem_cons_self w ws)
    simp only [stripDelim, List.cons_append, stripDelimAux, if_neg hw]
    exact congrArg (w :: ·)
      (stripDelim_append_left (fun y hy => h y (List.mem_cons_of_mem w hy)) t)

/-- Every character of the stripped output comes from the saved span or
from the input. -/
lemma mem_stripDelimAux {o c x : Char} :
    ∀ {s : List Char} {mode : Option (List Char)},
      x ∈ stripDelimAux o c mode s →
        x ∈ (match mode with | some saved => saved | none => ([] : List Char)) ++ s
  | [], none, h => by simp [stripDelimAux] at h
  | [], some saved, h => by
    simp only [stripDelimAux, List.mem_reverse] at h
    simpa using h
  | z :: s, none, h => by
    by_cases hz : z = o
    · simp only [stripDelimAux, if_pos hz] at h
      have h1 := mem_stripDelimAux h
      simpa using h1
    · simp only [stripDelimAux, if_neg hz, List.mem_cons] at h
      rcases h with h | h
      · simp [h]
      · have h1 := mem_stripDelimAux h
        simp only [List.nil_append] at h1 ⊢
        exact List.mem_cons_of_mem z h1
  | z :: s, some saved, h => by
    by_cases hz : z = c
    · simp only [stripDelimAux, if_pos hz] at h
      have h1 := mem_stripDelimAux h
      simp only [List.nil_append] at h1
      exact List.mem_append_right _ (List.mem_cons_of_mem z h1)
    · simp only [stripDelimAux, if_neg hz] at h
      have h1 := mem_stripDelimAux h
      simp only [List.cons_append, List.mem_cons] at h1
      rcases h1 with h1 | h1
      · exact List.mem_append_right _ (h1 ▸ List.mem_cons_self z s)
      · rcases List.mem_append.mp h1 with h2 | h2
        · exact List.mem_append_left _ h2
        · exact List.mem_append_right _ (List.mem_cons_of_mem z h2)

/-- Every character of `stripDelim o c s` is a character of `s`. -/
lemma mem_of_mem_stripDelim {o c x : Char} {s : List Char}
    (h : x ∈ stripDelim o c s) : x ∈ s := by
  simpa using mem_stripDelimAux h

/-- Inside a span, the first closer ends it and scanning resumes after
it: the whole span, newlines included, is dropped. -/
lemma stripDelimAux_span {o c : Char} :
    ∀ {mid : List Char} (saved post : List Char), (∀ x ∈ mid, x ≠ c) →
      stripDelimAux o c (some saved) (mid ++ c :: post) = stripDelimAux o c none post
  | [], saved, post, _ => by simp [stripDelimAux]
  | m :: mid, saved, post, h => by
    have hm : ¬ m = c := h m (List.mem_cons_self m mid)
    simp only [List.cons_append, stripDelimAux, if_neg hm]
    exact stripDelimAux_span (m :: saved) post fun x hx => h x (List.mem_cons_of_mem m hx)

/-! ## `firstIdx` and `firstSub` -/

/-- `firstIdx` finds the first satisfying position after a clean run. -/
lemma firstIdx_append_cons {p : Char → Bool} {y : Char} (hy : p y = true) :
    ∀ {ws : List Char}, (∀ x ∈ ws, p x = false) →
      ∀ rest : List Char, firstIdx p (ws ++ y :: rest) = some ws.length
  | [], _, rest => by simp [firstIdx, hy]
  | w :: ws, h, rest => by
    have hw : p w = false := h w (List.mem_cons_self w ws)
    have hrec := firstIdx_append_cons hy (fun x hx => h x (List.mem_cons_of_mem w hx)) rest
    show firstIdx p (w :: (ws ++ y :: rest)) = some (w :: ws).length
    rw [firstIdx, if_neg (by simp [hw]), hrec]
    simp

/-- `firstSub` returns the position where the pattern first starts. -/
lemma firstSub_eq_some_of {pat : List Char} (hne : pat ≠ []) :
    ∀ (l : List Char) (n : Nat), pat.isPrefixOf (l.drop n) = true →
      (∀ i, i < n → pat.isPrefixOf (l.drop i) = false) → firstSub pat l = some n
  | [], n, hpf, _ => by
    rcases pat with _ | ⟨p, pat⟩
    · exact absurd rfl hne
    · simp [List.isPrefixOf] at hpf
  | x :: rest, 0, hpf, _ => by
    simp only [List.drop_zero] at hpf
    simp [firstSub, hpf]
  | x :: rest, n + 1, hpf, hmin => by
    have h0 : pat.isPrefixOf (x :: rest) = false := by
      simpa using hmin 0 (Nat.succ_pos n)
    have hrec := firstSub_eq_some_of hne rest n (by simpa using hpf)
      (fun i hi => by simpa using hmin (i + 1) (by omega))
    simp [firstSub, h0, hrec]

/-! ## `scanViews` -/

/-- Scanning the empty content yields nothing, for any fuel. -/
lemma scanViewsAux_nil (fuel off : Nat) : scanViewsAux fuel off [] = [] := by
  cases fuel with
  | zero => rfl
  | succ k => simp [scanViewsAux, firstSub, openTagL]

/-- The result does not depend on the fuel, as long as the fuel covers
the content length. -/
lemma scanViewsAux_fuel :
    ∀ {fuel fuel' off : Nat} {s : List Char}, s.length ≤ fuel → s.length ≤ fuel' →
      scanViewsAux fuel off s = scanViewsAux fuel' off s
  | 0, fuel', off, s, h, _ => by
    have hs : s = [] := List.length_eq_zero.mp (Nat.le_zero.mp h)
    subst hs
    rw [scanViewsAux_nil, scanViewsAux_nil]
  | fuel + 1, 0, off, s, _, h' => by
    have hs : s = [] := List.length_eq_zero.mp (Nat.le_zero.mp h')
    subst hs
    rw [scanViewsAux_nil, scanViewsAux_nil]
  | fuel + 1, fuel' + 1, off, s, h, h' => by
    cases hfs : firstSub openTagL s with
    | none => simp [scanViewsAux, hfs]
    | some i =>
      cases hfi : firstIdx (fun y => y = '>') (s.drop (i + 5)) with
      | none => simp [scanViewsAux, hfs, hfi]
      | some g =>
        cases hfc : firstSub closeTagL (s.drop (i + 5 + g + 1)) with
        | none => simp [scanViewsAux, hfs, hfi, hfc]
        | some e =>
          simp only [scanViewsAux, hfs, hfi, hfc, List.cons.injEq, true_and]
          exact scanViewsAux_fuel
            (by simp only [List.length_drop]; omega)
            (by simp only [List.length_drop]; omega)

/-- Changing the base offset shifts every reported match start. -/
lemma scanViewsAux_shift :
    ∀ (fuel : Nat) {off d : Nat} {s : List Char},
      scanViewsAux fuel (off + d) s =
        (scanViewsAux fuel off s).map
          (fun m => { start := m.start + d, body := m.body, full := m.full })
  | 0, _, _, _ => rfl
  | fuel + 1, off, d, s => by
    cases hfs : firstSub openTagL s with
    | none => simp [scanViewsAux, hfs]
    | some i =>
      cases hfi : firstIdx (fun y => y = '>') (s.drop (i + 5)) with
      | none => simp [scanViewsAux, hfs, hfi]
      | some g =>
        cases hfc : firstSub closeTagL (s.drop (i + 5 + g + 1)) with
        | none => simp [scanViewsAux, hfs, hfi, hfc]
        | some e =>
          simp only [scanViewsAux, hfs, hfi, hfc, List.map_cons, List.cons.injEq]
          constructor
          · simp only [RMatch.mk.injEq, and_true]
            omega
          · have harith : off + d + i + (5 + g + 1 + e + 7) =
                (off + i + (5 + g + 1 + e + 7)) + d := by omega
            rw [harith]
            exact scanViewsAux_shift fuel

/-- Every reported match really sits at its reported start offset: the
full matched text is a Boolean prefix of the content dropped there. -/
lemma scanViewsAux_sound :
    ∀ {fuel off : Nat} {s : List Char} {m : RMatch}, m ∈ scanViewsAux fuel off s →
      ∃ k, m.start = off + k ∧ m.full.isPrefixOf (s.drop k) = true
  | 0, _, _, _, h => by simp [scanViewsAux] at h
  | fuel + 1, off, s, m, h => by
    cases hfs : firstSub openTagL s with
    | none => simp [scanViewsAux, hfs] at h
    | some i =>
      cases hfi : firstIdx (fun y => y = '>') (s.drop (i + 5)) with
      | none => simp [scanViewsAux, hfs, hfi] at h
      | some g =>
        cases hfc : firstSub closeTagL (s.drop (i + 5 + g + 1)) with
        | none => simp [scanViewsAux, hfs, hfi, hfc] at h
        | some e =>
          simp only [scanViewsAux, hfs, hfi, hfc, List.mem_cons] at h
          rcases h with h | h
          · subst h
            exact ⟨i, rfl, take_isPrefixOf _ _⟩
          · obtain ⟨k, hk, hpf⟩ := scanViewsAux_sound h
            refine ⟨i + (5 + g + 1 + e + 7) + k, by omega, ?_⟩
            rw [List.drop_drop] at hpf
            exact hpf

/-! ## The walk fold -/

/-- One file step appends exactly that file's issues and diagnostics. -/
lemma processFileStep_eq (read : String → Except String (List Char))
    (root : String) (acc2 : List Issue × List String) (file : String) :
    processFileStep read root acc2 file =
      (acc2.1 ++ fileIssues read root file, acc2.2 ++ fileDiags read root file) := by
  by_cases h : allowedExt file
  · cases hr : read (root ++ "/" ++ file) with
    | ok content => simp [processFileStep, fileIssues, fileDiags, h, hr]
    | error e => simp [processFileStep, fileIssues, fileDiags, h, hr]
  · simp [processFileStep, fileIssues, fileDiags, h]

/-- Folding the files of one entry appends their issues and diagnostics
in order. -/
lemma foldl_processFileStep (read : String → Except String (List Char)) (root : String) :
    ∀ (files : List String) (acc2 : List Issue × List String),
      files.foldl (processFileStep read root) acc2 =
        (acc2.1 ++ files.flatMap (fileIssues read root),
         acc2.2 ++ files.flatMap (fileDiags read root))
  | [], acc2 => by simp
  | f :: files, acc2 => by
    rw [List.foldl_cons, processFileStep_eq,
      foldl_processFileStep read root files]
    simp

/-- Folding the whole walk appends every entry's issues and
diagnostics in traversal order. -/
lemma foldl_walkStep (read : String → Except String (List Char)) :
    ∀ (walk : List WalkEntry) (acc : List Issue × List String),
      walk.foldl (walkStep read) acc =
        (acc.1 ++ walkIssues read walk, acc.2 ++ walkDiags read walk)
  | [], acc => by simp [walkIssues, walkDiags]
  | en :: walk, acc => by
    rw [List.foldl_cons]
    by_cases h : excludedDir en.root
    · rw [show walkStep read acc en = acc by simp [walkStep, h],
        foldl_walkStep read walk]
      simp [walkIssues, walkDiags, h]
    · rw [show walkStep read acc en =
          (acc.1 ++ en.files.flatMap (fileIssues read en.root),
           acc.2 ++ en.files.flatMap (fileDiags read en.root)) by
        simp [walkStep, h, foldl_processFileStep],
        foldl_walkStep read walk]
      simp [walkIssues, walkDiags, h]

/-- `find_text_in_views` is exactly the per-file decomposition: each
entry of the walk contributes its files' issues and diagnostics. -/
lemma find_text_in_views_eq (walk : List WalkEntry)
    (read : String → Except String (List Char)) :
    find_text_in_views walk read = (walkIssues read walk, walkDiags read walk) := by
  rw [find_text_in_views, foldl_walkStep]
  simp

/-! ## `classify` -/

/-- Whatever Issue `classify` produces carries the loop's file path,
line-number formula and snippet formula. -/
lemma classify_some_fields {fp : String} {content : List Char} {m : RMatch} {i : Issue}
    (h : classify fp content m = some i) :
    i.file = fp ∧ i.line = (content.take m.start).count '\n' + 1 ∧
      i.content = (if 100 < m.full.length then m.full.take 100 ++ ellipsisL else m.full) := by
  simp only [classify] at h
  split at h
  · exact absurd h (by simp)
  · split at h
    · injection h with h
      exact h ▸ ⟨rfl, rfl, rfl⟩
    · exact absurd h (by simp)

/-- An all-whitespace (possibly empty) list strips to nothing. -/
lemma pyStrip_eq_nil {s : List Char} (h : ∀ x ∈ s, pyIsSpace x = true) :
    pyStrip s = [] := by
  have h1 : s.dropWhile pyIsSpace = [] := List.dropWhile_eq_nil_iff.mpr h
  simp [pyStrip, h1]

/-! ## Claims -/

/-- C1.  For every extracted container region whose body, after
stripping every brace-delimited expression span and every angle-bracket
tag span and trimming whitespace, still contains at least one
alphanumeric character, exactly one Issue is produced for that region:
`classify` (the body of the per-match loop, of which
`processContent = (scanViews content).filterMap (classify fp content)`
runs exactly one instance per region) returns `some` of exactly the
Issue carrying that file path, that region's line number, and that
region's snippet, and that Issue appears in the output. -/
theorem c1_residual_text_one_issue (fp : String) (content : List Char) (m : RMatch)
    (hm : m ∈ scanViews content)
    (h : hasAlnum (pyStrip (stripDelim '<' '>' (stripDelim '{' '}' m.body))) = true) :
    classify fp content m =
      some { file := fp,
             line := (content.take m.start).count '\n' + 1,
             content := if 100 < m.full.length then m.full.take 100 ++ ellipsisL
                        else m.full } ∧
    ({ file := fp,
       line := (content.take m.start).count '\n' + 1,
       content := if 100 < m.full.length then m.full.take 100 ++ ellipsisL
                  else m.full } : Issue) ∈ processContent fp content := by
  obtain ⟨lws, rws, hdec, hl, hr⟩ := pyStrip_decomp m.body
  have hl1 : ∀ x ∈ lws, x ≠ '{' := fun x hx => (space_not_delim (hl x hx)).1
  have hl3 : ∀ x ∈ lws, x ≠ '<' := fun x hx => (space_not_delim (hl x hx)).2.2.1
  have hr1 : ∀ x ∈ rws, x ≠ '{' := fun x hx => (space_not_delim (hr x hx)).1
  have hr2 : ∀ x ∈ rws, x ≠ '}' := fun x hx => (space_not_delim (hr x hx)).2.1
  have hr3 : ∀ x ∈ rws, x ≠ '<' := fun x hx => (space_not_delim (hr x hx)).2.2.1
  have hr4 : ∀ x ∈ rws, x ≠ '>' := fun x hx => (space_not_delim (hr x hx)).2.2.2
  have hA : stripDelim '{' '}' m.body =
      lws ++ (stripDelim '{' '}' (pyStrip m.body) ++ rws) := by
    conv_lhs => rw [hdec]
    rw [stripDelim_append_left hl1]
    exact congrArg (lws ++ ·) (stripDelimAux_append_ws hr1 hr2 (pyStrip m.body) none)
  have hB : stripDelim '<' '>' (stripDelim '{' '}' m.body) =
      lws ++ (stripDelim '<' '>' (stripDelim '{' '}' (pyStrip m.body)) ++ rws) := by
    rw [hA, stripDelim_append_left hl3]
    exact congrArg (lws ++ ·)
      (stripDelimAux_append_ws hr3 hr4 (stripDelim '{' '}' (pyStrip m.body)) none)
  have hY : hasAlnum (stripDelim '<' '>' (stripDelim '{' '}' (pyStrip m.body))) = true := by
    rw [hasAlnum_pyStrip, hB, hasAlnum_ws_append hl hr] at h
    exact h
  obtain ⟨a, haY, ha⟩ := List.any_eq_true.mp hY
  have hvc : (pyStrip m.body).isEmpty = false := by
    have hmem : a ∈ pyStrip m.body :=
      mem_of_mem_stripDelim (mem_of_mem_stripDelim haY)
    simpa [List.isEmpty_iff] using List.ne_nil_of_mem hmem
  have hcl : hasAlnum (pyStrip (stripDelim '<' '>' (stripDelim '{' '}' (pyStrip m.body)))) =
      true := by
    rw [hasAlnum_pyStrip]
    exact hY
  have hclne : (pyStrip (stripDelim '<' '>' (stripDelim '{' '}' (pyStrip m.body)))).isEmpty =
      false := by
    obtain ⟨b, hb, _⟩ := List.any_eq_true.mp hcl
    simpa [List.isEmpty_iff] using List.ne_nil_of_mem hb
  have hsome : classify fp content m =
      some { file := fp,
             line := (content.take m.start).count '\n' + 1,
             content := if 100 < m.full.length then m.full.take 100 ++ ellipsisL
                        else m.full } := by
    simp [classify, hvc, hclne, hcl]
  exact ⟨hsome, List.mem_filterMap.mpr ⟨m, hm, hsome⟩⟩

/-- C2.  For every extracted container region whose body is empty or
consists only of whitespace, no Issue is produced for that region: the
per-region loop body `classify` (the only source of Issues in
`processContent`) returns `none`. -/
theorem c2_blank_body_no_issue (fp : String) (content : List Char) (m : RMatch)
    (hm : m ∈ scanViews content) (h : ∀ x ∈ m.body, pyIsSpace x = true) :
    classify fp content m = none := by
  simp [classify, pyStrip_eq_nil h]

/-- C3, counterexample.  The claim says a removed `{...}` span never
extends across a line break.  On the region body `{a\nb}x` the code's
brace-stripping yields `x`: the span `{a\nb}`, which contains a newline,
was removed, so the claim is false. -/
theorem c3_counterexample :
    stripDelim '{' '}' ['{', 'a', '\n', 'b', '}', 'x'] = ['x'] ∧
    '\n' ∈ ['{', 'a', '\n', 'b', '}', 'x'] ∧
    '\n' ∉ stripDelim '{' '}' ['{', 'a', '\n', 'b', '}', 'x'] := by
  decide

/-- C3, amended.  Each stripped brace-delimited expression span runs
from a `{` to the first subsequent `}` regardless of line breaks: for a
body containing a brace expression, the whole span — newlines included —
is removed, and stripping continues after it. -/
theorem c3_amended_span_crosses_newlines (pre mid post : List Char)
    (hpre : ∀ x ∈ pre, x ≠ '{') (hmid : ∀ x ∈ mid, x ≠ '}') :
    stripDelim '{' '}' (pre ++ '{' :: (mid ++ '}' :: post)) =
      pre ++ stripDelim '{' '}' post := by
  rw [stripDelim_append_left hpre]
  refine congrArg (pre ++ ·) ?_
  show stripDelimAux '{' '}' none ('{' :: (mid ++ '}' :: post)) = _
  rw [show stripDelimAux '{' '}' none ('{' :: (mid ++ '}' :: post)) =
      stripDelimAux '{' '}' (some ['{']) (mid ++ '}' :: post) by simp [stripDelimAux]]
  exact stripDelimAux_span ['{'] post hmid

/-- C3, amended, witness: the concrete body `a{x\ny}b` loses the whole
multi-line span `{x\ny}`. -/
theorem c3_amended_witness :
    stripDelim '{' '}' ("a".toList ++ '{' :: ("x\ny".toList ++ '}' :: "b".toList)) =
      "a".toList ++ stripDelim '{' '}' "b".toList :=
  c3_amended_span_crosses_newlines "a".toList "x\ny".toList "b".toList
    (by decide) (by decide)

/-- C4.  Region extraction finds the leftmost opening container tag
(`<View` followed by arbitrary non-`>` attribute characters and `>`),
takes the body non-greedily up to the first subsequent closing tag —
crossing line breaks, and in a nested same-kind container stopping at
the first `</View>` encountered rather than the structurally matching
one — and then continues scanning after the match, so every
non-overlapping leftmost occurrence is found.  The hypotheses say
exactly that `pre` ends at the first `<View` occurrence, that `attrs`
is `>`-free, and that the closing tag at the end of `body` is the first
one after the opening tag. -/
theorem c4_region_extraction (pre attrs body rest : List Char)
    (hpre : ∀ i, i < pre.length →
      openTagL.isPrefixOf
        ((pre ++ (openTagL ++ (attrs ++ ('>' :: (body ++ (closeTagL ++ rest)))))).drop i) =
        false)
    (hattrs : ∀ x ∈ attrs, x ≠ '>')
    (hbody : ∀ i, i < body.length →
      closeTagL.isPrefixOf ((body ++ (closeTagL ++ rest)).drop i) = false) :
    scanViews (pre ++ (openTagL ++ (attrs ++ ('>' :: (body ++ (closeTagL ++ rest)))))) =
      { start := pre.length, body := body,
        full := openTagL ++ (attrs ++ ('>' :: (body ++ closeTagL))) } ::
      (scanViews rest).map
        (fun m => { start := m.start + (pre.length + (5 + attrs.length + 1 + body.length + 7)),
                    body := m.body, full := m.full }) := by
  have hop5 : openTagL.length = 5 := rfl
  have hcl7 : closeTagL.length = 7 := rfl
  have hd0 : (pre ++ (openTagL ++ (attrs ++ ('>' :: (body ++ (closeTagL ++ rest)))))).drop
      pre.length = openTagL ++ (attrs ++ ('>' :: (body ++ (closeTagL ++ rest)))) :=
    List.drop_left pre _
  have hfs : firstSub openTagL
      (pre ++ (openTagL ++ (attrs ++ ('>' :: (body ++ (closeTagL ++ rest)))))) =
      some pre.length := by
    refine firstSub_eq_some_of (by decide) _ pre.length ?_ hpre
    rw [hd0]
    exact isPrefixOf_append_self openTagL _
  have hshape1 : pre ++ (openTagL ++ (attrs ++ ('>' :: (body ++ (closeTagL ++ rest))))) =
      (pre ++ openTagL) ++ (attrs ++ ('>' :: (body ++ (closeTagL ++ rest)))) := by
    rw [List.append_assoc]
  have hd1 : (pre ++ (openTagL ++ (attrs ++ ('>' :: (body ++ (closeTagL ++ rest)))))).drop
      (pre.length + 5) = attrs ++ ('>' :: (body ++ (closeTagL ++ rest))) := by
    rw [hshape1]
    exact List.drop_left' (by simp [hop5])
  have hfi : firstIdx (fun y => y = '>') (attrs ++ ('>' :: (body ++ (closeTagL ++ rest)))) =
      some attrs.length :=
    firstIdx_append_cons (by decide)
      (fun x hx => decide_eq_false (hattrs x hx)) (body ++ (closeTagL ++ rest))
  have hshape2 : pre ++ (openTagL ++ (attrs ++ ('>' :: (body ++ (closeTagL ++ rest))))) =
      ((pre ++ openTagL) ++ (attrs ++ ['>'])) ++ (body ++ (closeTagL ++ rest)) := by
    simp
  have hd2 : (pre ++ (openTagL ++ (attrs ++ ('>' :: (body ++ (closeTagL ++ rest)))))).drop
      (pre.length + 5 + attrs.length + 1) = body ++ (closeTagL ++ rest) := by
    rw [hshape2]
    refine List.drop_left' ?_
    simp [hop5]
    omega
  have hfc : firstSub closeTagL (body ++ (closeTagL ++ rest)) = some body.length := by
    refine firstSub_eq_some_of (by decide) _ body.length ?_ hbody
    rw [List.drop_left body _]
    exact isPrefixOf_append_self closeTagL rest
  have htake_body : (body ++ (closeTagL ++ rest)).take body.length = body :=
    List.take_left body _
  have hshape3 : openTagL ++ (attrs ++ ('>' :: (body ++ (closeTagL ++ rest)))) =
      (openTagL ++ (attrs ++ ('>' :: (body ++ closeTagL)))) ++ rest := by
    simp
  have htake_full : (openTagL ++ (attrs ++ ('>' :: (body ++ (closeTagL ++ rest))))).take
      (5 + attrs.length + 1 + body.length + 7) =
      openTagL ++ (attrs ++ ('>' :: (body ++ closeTagL))) := by
    rw [hshape3]
    refine List.take_left' ?_
    simp [hop5, hcl7]
    omega
  have hshape4 : pre ++ (openTagL ++ (attrs ++ ('>' :: (body ++ (closeTagL ++ rest))))) =
      (pre ++ (openTagL ++ (attrs ++ ('>' :: (body ++ closeTagL))))) ++ rest := by
    simp
  have hd3 : (pre ++ (openTagL ++ (attrs ++ ('>' :: (body ++ (closeTagL ++ rest)))))).drop
      (pre.length + (5 + attrs.length + 1 + body.length + 7)) = rest := by
    rw [hshape4]
    refine List.drop_left' ?_
    simp [hop5, hcl7]
    omega
  have hslen : (pre ++ (openTagL ++ (attrs ++ ('>' :: (body ++ (closeTagL ++ rest)))))).length =
      pre.length + (5 + attrs.length + 1 + body.length + 7) + rest.length := by
    simp [hop5, hcl7]
    omega
  obtain ⟨N, hN⟩ : ∃ N,
      (pre ++ (openTagL ++ (attrs ++ ('>' :: (body ++ (closeTagL ++ rest)))))).length =
        N + 1 :=
    ⟨pre.length + (5 + attrs.length + 1 + body.length + 7) + rest.length - 1, by omega⟩
  rw [scanViews, hN]
  simp only [scanViewsAux, hfs, hd1, hfi, hd2, hfc, htake_body, hd0, htake_full, hd3,
    Nat.zero_add]
  refine congrArg (RMatch.mk pre.length body _ :: ·) ?_
  have hrl : rest.length ≤ N := by omega
  have hfuel : scanViewsAux N (pre.length + (5 + attrs.length + 1 + body.length + 7)) rest =
      scanViewsAux rest.length (pre.length + (5 + attrs.length + 1 + body.length + 7)) rest :=
    scanViewsAux_fuel hrl (le_refl _)
  rw [hfuel,
    show pre.length + (5 + attrs.length + 1 + body.length + 7) =
      0 + (pre.length + (5 + attrs.length + 1 + body.length + 7)) by omega,
    scanViewsAux_shift rest.length]
  simp [scanViews]

/-- C5.  A read failure on a selected file in a non-excluded directory
prints one diagnostic naming the offending path, that file contributes
zero Issues, and the scan is never fatal and continues with every other
file: the whole result still decomposes file by file as `walkIssues`. -/
theorem c5_read_failure_isolated (walk : List WalkEntry)
    (read : String → Except String (List Char))
    (root f e : String) (fs1 fs2 : List String)
    (hw : WalkEntry.mk root (fs1 ++ f :: fs2) ∈ walk)
    (hroot : excludedDir root = false)
    (hf : allowedExt f = true)
    (herr : read (root ++ "/" ++ f) = .error e) :
    errMsg (root ++ "/" ++ f) e ∈ (find_text_in_views walk read).2 ∧
    fileIssues read root f = [] ∧
    (find_text_in_views walk read).1 = walkIssues read walk := by
  have hdiag : fileDiags read root f = [errMsg (root ++ "/" ++ f) e] := by
    simp [fileDiags, hf, herr]
  have hiss : fileIssues read root f = [] := by
    simp [fileIssues, hf, herr]
  refine ⟨?_, hiss, by rw [find_text_in_views_eq]⟩
  rw [find_text_in_views_eq]
  show errMsg (root ++ "/" ++ f) e ∈ walkDiags read walk
  rw [walkDiags]
  refine List.mem_flatMap.mpr ⟨⟨root, fs1 ++ f :: fs2⟩, hw, ?_⟩
  simp only [hroot, Bool.false_eq_true, if_false]
  refine List.mem_flatMap.mpr ⟨f, by simp, ?_⟩
  rw [hdiag]
  exact List.mem_singleton.mpr rfl

/-- C6, counterexample.  The claim says any file whose path contains a
marker substring is never opened and contributes no Issue.  The file
`build.tsx` in the clean directory `app` has the marker `build` in its
path `app/build.tsx`, yet the scan opens it and reports an Issue: the
code checks the markers against the directory part only. -/
theorem c6_counterexample :
    hasSub "build".toList ("app" ++ "/" ++ "build.tsx").toList = true ∧
    (find_text_in_views [⟨"app", ["build.tsx"]⟩]
        (fun _ => Except.ok "<View>hi</View>".toList)).1 =
      [{ file := "app/build.tsx", line := 1, content := "<View>hi</View>".toList }] := by
  decide

/-- C6, amended.  For every walk entry whose directory path contains a
dependency-cache, version-control or build-output marker as a
substring, that directory's files are never opened and contribute no
Issue and no diagnostic: the scan result is as if the entry were not
walked at all, whatever `read` would return. -/
theorem c6_amended_excluded_root_skipped (w1 w2 : List WalkEntry) (root : String)
    (files : List String) (read : String → Except String (List Char))
    (h : excludedDir root = true) :
    find_text_in_views (w1 ++ ⟨root, files⟩ :: w2) read =
      find_text_in_views (w1 ++ w2) read := by
  rw [find_text_in_views_eq, find_text_in_views_eq]
  simp [walkIssues, walkDiags, h]

/-- C7.  Every reported Issue comes from a region whose full matched
text really starts at the recorded offset in the file content, and its
line number is exactly 1 plus the number of newline characters before
that offset. -/
theorem c7_line_numbering (fp : String) (content : List Char) (i : Issue)
    (hi : i ∈ processContent fp content) :
    ∃ m, m ∈ scanViews content ∧ classify fp content m = some i ∧
      m.full.isPrefixOf (content.drop m.start) = true ∧
      i.line = (content.take m.start).count '\n' + 1 := by
  obtain ⟨m, hm, hcl⟩ := List.mem_filterMap.mp hi
  obtain ⟨k, hk, hpf⟩ := scanViewsAux_sound hm
  have hk0 : m.start = k := by omega
  refine ⟨m, hm, hcl, ?_, (classify_some_fields hcl).2.1⟩
  rw [hk0]
  exact hpf

/-- C8.  An Issue whose full matched region exceeds 100 characters
reports exactly the first 100 characters of the original unstripped
match followed by the fixed marker `...` (103 characters in all); a
match of at most 100 characters is reported verbatim. -/
theorem c8_snippet_truncation (fp : String) (content : List Char) (m : RMatch) (i : Issue)
    (h : classify fp content m = some i) :
    (100 < m.full.length →
      i.content = m.full.take 100 ++ ellipsisL ∧ i.content.length = 103) ∧
    (m.full.length ≤ 100 → i.content = m.full) := by
  have hc := (classify_some_fields h).2.2
  constructor
  · intro hlen
    rw [hc, if_pos hlen]
    refine ⟨rfl, ?_⟩
    simp [ellipsisL]
    omega
  · intro hlen
    rw [hc, if_neg (by omega)]

/-- C9.  The opening-tag pattern has no word boundary after `View`, so
the tag `<Viewport>`, whose name merely begins with `View`, opens a
region that runs to the later `</View>` and produces an Issue even
though the tag is not the container component. -/
theorem c9_longer_tag_names_match :
    scanViews "<Viewport>text</View>".toList =
      [{ start := 0, body := "text".toList, full := "<Viewport>text</View>".toList }] ∧
    processContent "f.tsx" "<Viewport>text</View>".toList =
      [{ file := "f.tsx", line := 1, content := "<Viewport>text</View>".toList }] := by
  decide

/-- C10.  A self-closing `<View />` is matched as an opening tag
(` /` is absorbed by the attribute part), so together with a later
`</View>` it forms a region spanning from the self-closing tag, and it
produces an Issue whose line number (1) is the line of the self-closing
tag, not of the closing tag (line 3). -/
theorem c10_self_closing_opens_region :
    scanViews "<View />\nhello\n</View>".toList =
      [{ start := 0, body := "\nhello\n".toList, full := "<View />\nhello\n</View>".toList }] ∧
    processContent "f.tsx" "<View />\nhello\n</View>".toList =
      [{ file := "f.tsx", line := 1, content := "<View />\nhello\n</View>".toList }] := by
  decide

/-- C1, witness: the spec's scenario `<View>Raw text</View>` yields one
Issue with the full matched text as snippet. -/
theorem c1_witness :
    classify "f.tsx" "<View>Raw text</View>".toList
        { start := 0, body := "Raw text".toList, full := "<View>Raw text</View>".toList } =
      some { file := "f.tsx", line := 1, content := "<View>Raw text</View>".toList } ∧
    ({ file := "f.tsx", line := 1, content := "<View>Raw text</View>".toList } : Issue) ∈
      processContent "f.tsx" "<View>Raw text</View>".toList := by
  have h := c1_residual_text_one_issue "f.tsx" "<View>Raw text</View>".toList
    { start := 0, body := "Raw text".toList, full := "<View>Raw text</View>".toList }
    (by decide) (by decide)
  exact h

/-- C2, witness: the spec's scenario `<View>   </View>` yields no
Issue. -/
theorem c2_witness :
    classify "f.tsx" "<View>   </View>".toList
        { start := 0, body := "   ".toList, full := "<View>   </View>".toList } = none :=
  c2_blank_body_no_issue "f.tsx" "<View>   </View>".toList
    { start := 0, body := "   ".toList, full := "<View>   </View>".toList }
    (by decide) (by decide)

/-- C4, witness: in the nested input `<View><View>hi</View></View>` the
extracted region stops at the first `</View>`, not the structurally
matching one. -/
theorem c4_witness :
    scanViews "<View><View>hi</View></View>".toList =
      [{ start := 0, body := "<View>hi".toList, full := "<View><View>hi</View>".toList }] := by
  have h := c4_region_extraction [] [] "<View>hi".toList "</View>".toList
    (by decide) (by decide) (by decide)
  exact h

/-- C5, witness: a one-file walk whose read always fails produces the
diagnostic and no issues. -/
theorem c5_witness :
    errMsg ("app" ++ "/" ++ "a.tsx") "boom" ∈
      (find_text_in_views [⟨"app", ["a.tsx"]⟩]
        (fun _ => Except.error "boom")).2 ∧
    fileIssues (fun _ => Except.error "boom") "app" "a.tsx" = [] ∧
    (find_text_in_views [⟨"app", ["a.tsx"]⟩] (fun _ => Except.error "boom")).1 =
      walkIssues (fun _ => Except.error "boom") [⟨"app", ["a.tsx"]⟩] := by
  have h := c5_read_failure_isolated [⟨"app", ["a.tsx"]⟩]
    (fun _ => Except.error "boom") "app" "a.tsx" "boom" [] []
    (by decide) (by decide) (by decide) rfl
  exact h

/-- C6, amended, witness: a `node_modules` entry is skipped exactly as
if absent. -/
theorem c6_amended_witness :
    find_text_in_views ([] ++ ⟨"src/node_modules", ["View.tsx"]⟩ :: [])
        (fun _ => Except.ok "<View>hi</View>".toList) =
      find_text_in_views ([] ++ [])
        (fun _ => Except.ok "<View>hi</View>".toList) :=
  c6_amended_excluded_root_skipped [] [] "src/node_modules" ["View.tsx"]
    (fun _ => Except.ok "<View>hi</View>".toList) (by decide)

/-- C7, witness: the Issue reported at offset 3 of `xx\n<View>hi</View>`
carries line 2, one more than the single newline before the match. -/
theorem c7_witness :
    ∃ m, m ∈ scanViews "xx\n<View>hi</View>".toList ∧
      classify "f.tsx" "xx\n<View>hi</View>".toList m =
        some { file := "f.tsx", line := 2, content := "<View>hi</View>".toList } ∧
      m.full.isPrefixOf ("xx\n<View>hi</View>".toList.drop m.start) = true ∧
      ({ file := "f.tsx", line := 2, content := "<View>hi</View>".toList } : Issue).line =
        ("xx\n<View>hi</View>".toList.take m.start).count '\n' + 1 :=
  c7_line_numbering "f.tsx" "xx\n<View>hi</View>".toList
    { file := "f.tsx", line := 2, content := "<View>hi</View>".toList } (by decide)

/-- C8, witness: a 101-character match is truncated to its first 100
characters plus the marker, 103 characters in all. -/
theorem c8_witness :
    (100 < (List.replicate 101 'z').length →
      (List.replicate 100 'z' ++ ellipsisL : List Char) =
        (List.replicate 101 'z').take 100 ++ ellipsisL ∧
      (List.replicate 100 'z' ++ ellipsisL : List Char).length = 103) ∧
    ((List.replicate 101 'z').length ≤ 100 →
      (List.replicate 100 'z' ++ ellipsisL : List Char) = List.replicate 101 'z') := by
  have h := c8_snippet_truncation "f.tsx" ['a']
    { start := 0, body := ['a'], full := List.replicate 101 'z' }
    { file := "f.tsx", line := 1, content := List.replicate 100 'z' ++ ellipsisL }
    (by decide)
  exact h

end SearchViews
